import Mathlib

/-!
Verification of the hosts-file parser/serializer (`src/lib.rs`).

Strings are modelled as `List Char`.  The whitespace class `isWs` is the
Unicode `White_Space` property, which is the class used by Rust's
`str::trim` and `str::split_whitespace` alike.
-/

namespace HostsParser

/-- Unicode White_Space characters: the class used by Rust's
`char::is_whitespace`, hence by both `str::trim` and
`str::split_whitespace` in `HostsFileLine::from_string`. -/
def isWs (c : Char) : Bool :=
  c = ' ' || c = '\t' || c = '\n' || c.val = 0x0B || c.val = 0x0C || c = '\r' ||
    c.val = 0x85 || c.val = 0xA0 || c.val = 0x1680 ||
    (0x2000 ≤ c.val && c.val ≤ 0x200A) ||
    c.val = 0x2028 || c.val = 0x2029 || c.val = 0x202F || c.val = 0x205F || c.val = 0x3000

/-- Rust `str::trim`: drop leading and trailing whitespace. -/
def trim (s : List Char) : List Char := (s.dropWhile isWs).rdropWhile isWs

/-- Rust `str::split_whitespace`: the maximal non-whitespace runs, in order;
empty substrings are not produced. -/
def splitWs (s : List Char) : List (List Char) :=
  (s.splitOnP isWs).filter (fun t => !t.isEmpty)

/-- The predicate of the regex `^#.*` used in `from_string`: a match of the
whole-string search succeeds exactly when the first character is `#`. -/
def tokStartsHash : List Char → Bool
  | [] => false
  | c :: _ => c = '#'

/-- Rust `pub struct ParseError;` (a unit struct: one undifferentiated error). -/
structure ParseError where
  deriving Repr, DecidableEq

/-- Rust `struct HostsFileLine { is_empty, comment, ip, hosts }`. -/
structure HostsFileLine where
  is_empty : Bool
  comment : Option (List Char)
  ip : Option (List Char)
  hosts : Option (List (List Char))
  deriving Repr, DecidableEq

/-- Rust `HostsFileLine::from_empty`. -/
def HostsFileLine.from_empty : HostsFileLine :=
  { is_empty := true, comment := none, ip := none, hosts := none }

/-- Rust `HostsFileLine::from_comment`. -/
def HostsFileLine.from_comment (c : List Char) : HostsFileLine :=
  { is_empty := false, comment := some c, ip := none, hosts := none }

/-- Rust `HostsFileLine::from_string`: trim, classify as empty / comment /
host entry; tokenize on whitespace; the first token is the ip, the hostnames
are the tokens up to the first `#`-prefixed token, the remaining tokens
joined with single spaces are the comment (absent when the join is empty). -/
def HostsFileLine.from_string (line : List Char) : Except ParseError HostsFileLine :=
  let line := trim line
  if line = [] then Except.ok HostsFileLine.from_empty
  else if tokStartsHash line then Except.ok (HostsFileLine.from_comment line)
  else
    match splitWs line with
    | [] => Except.error {}
    | ip :: rest =>
      let hosts := rest.takeWhile (fun s => !tokStartsHash s)
      if hosts.isEmpty then Except.error {}
      else
        let commentStr := List.intercalate [' '] (rest.dropWhile (fun s => !tokStartsHash s))
        let comment := if commentStr = [] then none else some commentStr
        Except.ok { is_empty := false, comment := comment, ip := some ip, hosts := some hosts }

/-- Rust `impl fmt::Display for HostsFileLine`: collect `ip`, the hostnames
and the `comment` (each optional), keep the present ones, join with single
spaces. -/
def HostsFileLine.render (r : HostsFileLine) : List Char :=
  let hostParts : List (Option (List Char)) :=
    match r.hosts with
    | some hs => hs.map some
    | none => []
  let parts : List (Option (List Char)) := (r.ip :: hostParts) ++ [r.comment]
  List.intercalate [' '] (parts.filterMap id)

/-- Rust `HostsFileLine::has_host`. -/
def HostsFileLine.has_host (r : HostsFileLine) : Bool := r.ip.isSome

/-- Rust `HostsFileLine::has_comment`. -/
def HostsFileLine.has_comment (r : HostsFileLine) : Bool := r.comment.isSome

/-- Strip one trailing carriage return, as Rust `str::lines` does to each
line so that `\r\n` line endings are accepted. -/
def stripCr (s : List Char) : List Char :=
  if s.getLast? = some '\r' then s.dropLast else s

/-- The pieces of a text between `\n` characters, with the extra empty piece
caused by a final trailing newline removed (terminator semantics of Rust
`str::lines`, before carriage-return stripping). -/
def rawLines (s : List Char) : List (List Char) :=
  let ps := s.splitOn '\n'
  if ps.getLast? = some [] then ps.dropLast else ps

/-- Rust `str::lines`: split on `\n` with terminator semantics and strip one
trailing `\r` from each line. -/
def rustLines (s : List Char) : List (List Char) := (rawLines s).map stripCr

/-- Rust `collect::<Result<Vec<_>, ParseError>>()` over the parsed lines:
left-to-right, stopping at the first error. -/
def parseAll : List (List Char) → Except ParseError (List HostsFileLine)
  | [] => Except.ok []
  | l :: ls =>
    match HostsFileLine.from_string l with
    | Except.error e => Except.error e
    | Except.ok r =>
      match parseAll ls with
      | Except.error e => Except.error e
      | Except.ok rs => Except.ok (r :: rs)

/-- Rust `struct HostsFile { lines }`. -/
structure HostsFile where
  lines : List HostsFileLine
  deriving Repr, DecidableEq

/-- Rust `HostsFile::from_string`: parse every line of `s.lines()`,
failing on the first line that fails. -/
def HostsFile.from_string (s : List Char) : Except ParseError HostsFile :=
  match parseAll (rustLines s) with
  | Except.error e => Except.error e
  | Except.ok ls => Except.ok { lines := ls }

/-- Rust `HostsFile::serialize`: `format!("{}\n", lines.join("\n"))`. -/
def HostsFile.serialize (f : HostsFile) : List Char :=
  List.intercalate ['\n'] (f.lines.map HostsFileLine.render) ++ ['\n']

/-- Replace every `\n` of a text by `\r\n` (the same text with CRLF line
endings). -/
def toCrlf : List Char → List Char
  | [] => []
  | c :: cs => if c = '\n' then '\r' :: '\n' :: toCrlf cs else c :: toCrlf cs

/-- A line is in canonical form when it is exactly its own whitespace tokens
joined by single spaces: no leading or trailing whitespace, single-space
separators (the empty line is canonical). -/
def isCanonicalLine (l : List Char) : Bool :=
  List.intercalate [' '] (splitWs l) = l

/-- A text is in canonical form when it ends with a newline and every
physical line (piece between newlines) is a canonical line. -/
def isCanonical (s : List Char) : Bool :=
  s.getLast? = some '\n' && (rawLines s).all isCanonicalLine

/-- Spec tokenizer, an accumulator-style word splitter: maximal runs of
non-whitespace characters, in order. -/
def specTokensAux : List Char → List Char → List (List Char)
  | [], cur => if cur = [] then [] else [cur.reverse]
  | c :: cs, cur =>
    if isWs c then
      if cur = [] then specTokensAux cs [] else cur.reverse :: specTokensAux cs []
    else specTokensAux cs (c :: cur)

/-- Spec tokenizer entry point. -/
def specTokens (s : List Char) : List (List Char) := specTokensAux s []

/-- The spec's comment test `^#.*` on a token or trimmed line, written the
way the spec describes it: the first character is `#`. -/
def specIsCommentTok (t : List Char) : Bool := t.take 1 = ['#']

/-- The Line Classifier algorithm exactly as the spec words it (steps 1-8):
trim; empty → Empty; `^#.*` → Comment of the trimmed line; otherwise the
first token is the address, the hostnames are the maximal prefix of the
remaining tokens not starting with `#` (empty prefix → failure), and the
tokens from the first `#`-prefixed one onward joined with single spaces are
the comment, absent exactly when that join is empty. -/
def specParseLine (line : List Char) : Except ParseError HostsFileLine :=
  let t := trim line
  if t = [] then Except.ok HostsFileLine.from_empty
  else if specIsCommentTok t then Except.ok (HostsFileLine.from_comment t)
  else
    match specTokens t with
    | [] => Except.error {}
    | addr :: rest =>
      let hostnames := rest.takeWhile (fun tok => !specIsCommentTok tok)
      if hostnames = [] then Except.error {}
      else
        let commentToks := rest.drop hostnames.length
        let joined := List.intercalate [' '] commentToks
        Except.ok { is_empty := false
                    comment := if joined = [] then none else some joined
                    ip := some addr
                    hosts := some hostnames }

/-- The record has the Empty shape: `is_empty` set and every other field
absent. -/
def isEmptyRec (r : HostsFileLine) : Bool :=
  r.is_empty && r.comment.isNone && r.ip.isNone && r.hosts.isNone

/-- The record has the Comment shape: not empty, a comment present, no
address and no hostnames. -/
def isCommentRec (r : HostsFileLine) : Bool :=
  !r.is_empty && r.comment.isSome && r.ip.isNone && r.hosts.isNone

/-- The record has the Host shape: not empty, an address and a hostname list
present. -/
def isHostRec (r : HostsFileLine) : Bool :=
  !r.is_empty && r.ip.isSome && r.hosts.isSome

/-- How many of the three shapes the record satisfies. -/
def kindCount (r : HostsFileLine) : Nat :=
  (if isEmptyRec r then 1 else 0) + (if isCommentRec r then 1 else 0) +
    (if isHostRec r then 1 else 0)

/-- A record is well formed when it is of exactly one of the three shapes
and, when a hostname list is present, that list is nonempty. -/
def wellFormed (r : HostsFileLine) : Bool :=
  kindCount r = 1 &&
    (match r.hosts with
     | some hs => !hs.isEmpty
     | none => true)

/-! ### Helper lemmas about `splitOnP`, `splitWs` and `intercalate` -/

theorem splitOnP_mem_not (p : Char → Bool) (s : List Char) :
    ∀ t ∈ s.splitOnP p, ∀ c ∈ t, p c = false := by
  induction s with
  | nil =>
    intro t ht c hc
    simp only [List.splitOnP_nil, List.mem_singleton] at ht
    subst ht
    simp at hc
  | cons a s ih =>
    intro t ht c hc
    rw [List.splitOnP_cons] at ht
    by_cases ha : p a
    · rw [if_pos ha] at ht
      rcases List.mem_cons.mp ht with h1 | h1
      · subst h1; simp at hc
      · exact ih t h1 c hc
    · rw [if_neg ha] at ht
      rcases hs : s.splitOnP p with _ | ⟨t0, ts⟩
      · exact absurd hs (List.splitOnP_ne_nil p s)
      · rw [hs] at ht
        simp only [List.modifyHead, List.mem_cons] at ht
        rcases ht with h1 | h1
        · subst h1
          rcases List.mem_cons.mp hc with h2 | h2
          · subst h2; exact Bool.of_not_eq_true ha
          · exact ih t0 (hs ▸ List.mem_cons_self t0 ts) c h2
        · exact ih t (hs ▸ List.mem_cons_of_mem t0 h1) c hc

theorem splitWs_mem_ne_nil {t : List Char} {s : List Char} (h : t ∈ splitWs s) : t ≠ [] := by
  have := List.of_mem_filter h
  simpa using this

theorem splitWs_mem_not_ws {t : List Char} {s : List Char} (h : t ∈ splitWs s) :
    ∀ c ∈ t, isWs c = false :=
  splitOnP_mem_not isWs s t (List.mem_of_mem_filter h)

theorem splitWs_nil : splitWs [] = [] := rfl

theorem splitWs_ws_free {t : List Char} (h : ∀ c ∈ t, isWs c = false) :
    splitWs t = if t = [] then [] else [t] := by
  rcases t with _ | ⟨c, cs⟩
  · rfl
  · rw [if_neg (by simp)]
    have h' : ∀ x ∈ c :: cs, ¬ isWs x = true := by
      intro x hx
      simp [h x hx]
    unfold splitWs
    rw [List.splitOnP_eq_single _ _ h']
    simp

theorem splitWs_append_sep {t : List Char} {sep : Char} (rest : List Char)
    (h : ∀ c ∈ t, isWs c = false) (hsep : isWs sep = true) :
    splitWs (t ++ sep :: rest) = (if t = [] then [] else [t]) ++ splitWs rest := by
  have h' : ∀ c ∈ t, ¬ isWs c = true := by
    intro x hx
    simp [h x hx]
  unfold splitWs
  rw [List.splitOnP_first isWs t h' sep hsep rest]
  rcases t with _ | ⟨c, cs⟩
  · simp
  · simp

theorem intercalate_nil_pieces (sep : List Char) : List.intercalate sep [] = [] := rfl

theorem intercalate_single (sep l : List Char) : List.intercalate sep [l] = l := by
  simp [List.intercalate]

theorem intercalate_cons_ne_nil (sep l : List Char) {ls : List (List Char)} (h : ls ≠ []) :
    List.intercalate sep (l :: ls) = l ++ sep ++ List.intercalate sep ls := by
  rcases ls with _ | ⟨l2, ls⟩
  · exact absurd rfl h
  · simp [List.intercalate, List.intersperse_cons_cons]

theorem splitWs_intercalate {ts : List (List Char)}
    (h : ∀ t ∈ ts, t ≠ [] ∧ ∀ c ∈ t, isWs c = false) :
    splitWs (List.intercalate [' '] ts) = ts := by
  induction ts with
  | nil => rfl
  | cons t ts ih =>
    have ht := h t (List.mem_cons_self t ts)
    have hts : ∀ t ∈ ts, t ≠ [] ∧ ∀ c ∈ t, isWs c = false := by
      intro x hx
      exact h x (List.mem_cons_of_mem t hx)
    rcases hts0 : ts with _ | ⟨t2, ts2⟩
    · rw [intercalate_single, splitWs_ws_free ht.2, if_neg ht.1]
    · rw [← hts0]
      have hne : ts ≠ [] := by rw [hts0]; simp
      rw [intercalate_cons_ne_nil _ _ hne, List.append_assoc, List.singleton_append,
        splitWs_append_sep _ ht.2 (by decide), if_neg ht.1, ih hts]
      rfl

/-! ### Trim and carriage-return lemmas for canonical material -/

theorem intercalate_concat_ne_nil (sep y : List Char) {xs : List (List Char)} (h : xs ≠ []) :
    List.intercalate sep (xs ++ [y]) = List.intercalate sep xs ++ sep ++ y := by
  induction xs with
  | nil => exact absurd rfl h
  | cons x xs ih =>
    rcases hxs : xs with _ | ⟨x2, xs2⟩
    · simp [intercalate_single, intercalate_cons_ne_nil]
    · rw [← hxs]
      have hne : xs ≠ [] := by rw [hxs]; simp
      have hne2 : xs ++ [y] ≠ [] := by simp
      rw [List.cons_append, intercalate_cons_ne_nil _ _ hne2, ih hne,
        intercalate_cons_ne_nil _ _ hne]
      simp [List.append_assoc]

theorem dropWhile_ws_eq_self {t rest : List Char} (hne : t ≠ [])
    (h : ∀ c ∈ t, isWs c = false) : (t ++ rest).dropWhile isWs = t ++ rest := by
  rcases t with _ | ⟨c, cs⟩
  · exact absurd rfl hne
  · rw [List.cons_append, List.dropWhile_cons]
    simp [h c (List.mem_cons_self c cs)]

theorem rdropWhile_ws_eq_self {t front : List Char} (hne : t ≠ [])
    (h : ∀ c ∈ t, isWs c = false) : (front ++ t).rdropWhile isWs = front ++ t := by
  rcases List.eq_nil_or_concat t with h0 | ⟨t0, c, h0⟩
  · exact absurd h0 hne
  · rw [List.concat_eq_append] at h0
    subst h0
    rw [← List.append_assoc]
    exact List.rdropWhile_concat_neg isWs (front ++ t0) c (by simp [h c (by simp)])

theorem trim_intercalate {ts : List (List Char)}
    (h : ∀ t ∈ ts, t ≠ [] ∧ ∀ c ∈ t, isWs c = false) :
    trim (List.intercalate [' '] ts) = List.intercalate [' '] ts := by
  rcases ts with _ | ⟨t, ts⟩
  · rfl
  · have ht := h t (List.mem_cons_self t ts)
    have hdrop : (List.intercalate [' '] (t :: ts)).dropWhile isWs =
        List.intercalate [' '] (t :: ts) := by
      rcases hts : ts with _ | ⟨t2, ts2⟩
      · rw [intercalate_single, ← List.append_nil t]
        exact dropWhile_ws_eq_self ht.1 ht.2
      · rw [← hts, intercalate_cons_ne_nil _ _ (by rw [hts]; simp), List.append_assoc]
        exact dropWhile_ws_eq_self ht.1 ht.2
    have hlast : (List.intercalate [' '] (t :: ts)).rdropWhile isWs =
        List.intercalate [' '] (t :: ts) := by
      rcases List.eq_nil_or_concat ts with h0 | ⟨ts0, tl, h0⟩
      · subst h0
        rw [intercalate_single, ← List.nil_append t]
        exact rdropWhile_ws_eq_self ht.1 ht.2
      · rw [List.concat_eq_append] at h0
        subst h0
        have htl := h tl (by simp)
        rw [← List.cons_append, intercalate_concat_ne_nil _ _ (by simp)]
        exact rdropWhile_ws_eq_self htl.1 htl.2
    unfold trim
    rw [hdrop, hlast]

theorem getLast_not_ws_of_tokens {ts : List (List Char)}
    (h : ∀ t ∈ ts, t ≠ [] ∧ ∀ c ∈ t, isWs c = false) {c : Char}
    (hc : (List.intercalate [' '] ts).getLast? = some c) : isWs c = false := by
  rcases List.eq_nil_or_concat ts with h0 | ⟨ts0, tl, h0⟩
  · subst h0; simp [List.intercalate] at hc
  · rw [List.concat_eq_append] at h0
    subst h0
    have htl := h tl (by simp)
    rcases List.eq_nil_or_concat tl with h1 | ⟨tl0, d, h1⟩
    · exact absurd h1 htl.1
    · rw [List.concat_eq_append] at h1
      have hd : d ∈ tl := by rw [h1]; simp
      have hlast : (List.intercalate [' '] (ts0 ++ [tl])).getLast? = some d := by
        rcases ts0 with _ | ⟨t0, ts0'⟩
        · rw [List.nil_append, intercalate_single, h1]
          exact List.getLast?_concat _
        · rw [intercalate_concat_ne_nil _ _ (by simp), h1, ← List.append_assoc]
          exact List.getLast?_concat _
      rw [hlast] at hc
      cases hc
      exact htl.2 _ hd

theorem stripCr_of_tokens {ts : List (List Char)}
    (h : ∀ t ∈ ts, t ≠ [] ∧ ∀ c ∈ t, isWs c = false) :
    stripCr (List.intercalate [' '] ts) = List.intercalate [' '] ts := by
  unfold stripCr
  rcases hl : (List.intercalate [' '] ts).getLast? with _ | c
  · simp [hl]
  · have := getLast_not_ws_of_tokens h hl
    have hcr : c ≠ '\r' := by
      intro h2
      subst h2
      simp [isWs] at this
    simp [hl, hcr]

/-! ### Computation lemmas for `render` and `from_string` -/

theorem render_from_empty : HostsFileLine.from_empty.render = [] := rfl

theorem render_from_comment (c : List Char) : (HostsFileLine.from_comment c).render = c := by
  unfold HostsFileLine.render HostsFileLine.from_comment
  simp [intercalate_single]

theorem render_host (cm : Option (List Char)) (ip : List Char) (hs : List (List Char)) :
    HostsFileLine.render { is_empty := false, comment := cm, ip := some ip, hosts := some hs } =
      List.intercalate [' '] (ip :: (hs ++ cm.toList)) := by
  unfold HostsFileLine.render
  cases cm <;>
    simp [List.filterMap_append, List.filterMap_map, Function.comp_def, List.filterMap_some]

theorem from_string_empty_case {l : List Char} (h : trim l = []) :
    HostsFileLine.from_string l = Except.ok HostsFileLine.from_empty := by
  unfold HostsFileLine.from_string
  simp [h]

theorem from_string_comment_case {l : List Char} (h1 : trim l ≠ [])
    (h2 : tokStartsHash (trim l) = true) :
    HostsFileLine.from_string l = Except.ok (HostsFileLine.from_comment (trim l)) := by
  unfold HostsFileLine.from_string
  simp [h1, h2]

theorem from_string_no_tokens {l : List Char} (h1 : trim l ≠ [])
    (h2 : tokStartsHash (trim l) = false) (h3 : splitWs (trim l) = []) :
    HostsFileLine.from_string l = Except.error {} := by
  unfold HostsFileLine.from_string
  simp [h1, h2, h3]

theorem from_string_no_hosts {l ip : List Char} {rest : List (List Char)}
    (h1 : trim l ≠ []) (h2 : tokStartsHash (trim l) = false)
    (h3 : splitWs (trim l) = ip :: rest)
    (h4 : rest.takeWhile (fun s => !tokStartsHash s) = []) :
    HostsFileLine.from_string l = Except.error {} := by
  unfold HostsFileLine.from_string
  simp [h1, h2, h3, h4]

theorem from_string_host {l ip : List Char} {rest : List (List Char)}
    (h1 : trim l ≠ []) (h2 : tokStartsHash (trim l) = false)
    (h3 : splitWs (trim l) = ip :: rest)
    (h4 : rest.takeWhile (fun s => !tokStartsHash s) ≠ []) :
    HostsFileLine.from_string l = Except.ok
      { is_empty := false
        comment :=
          if List.intercalate [' '] (rest.dropWhile (fun s => !tokStartsHash s)) = []
          then none
          else some (List.intercalate [' '] (rest.dropWhile (fun s => !tokStartsHash s)))
        ip := some ip
        hosts := some (rest.takeWhile (fun s => !tokStartsHash s)) } := by
  unfold HostsFileLine.from_string
  simp [h1, h2, h3, h4]

theorem intercalate_nested {ys : List (List Char)} (xs : List (List Char)) (h : ys ≠ []) :
    List.intercalate [' '] (xs ++ [List.intercalate [' '] ys]) =
      List.intercalate [' '] (xs ++ ys) := by
  induction xs with
  | nil => simp [intercalate_single]
  | cons x xs ih =>
    rw [List.cons_append, List.cons_append, intercalate_cons_ne_nil _ _ (by simp),
      intercalate_cons_ne_nil _ _ (by simp [h]), ih]

/-! ### Per-line round trip on canonical lines -/

theorem canonicalLine_eq {l : List Char} (hc : isCanonicalLine l = true) :
    List.intercalate [' '] (splitWs l) = l := by
  simpa [isCanonicalLine] using hc

theorem canonicalLine_tokens {l : List Char} :
    ∀ t ∈ splitWs l, t ≠ [] ∧ ∀ c ∈ t, isWs c = false := fun _ ht =>
  ⟨splitWs_mem_ne_nil ht, splitWs_mem_not_ws ht⟩

theorem trim_of_canonicalLine {l : List Char} (hc : isCanonicalLine l = true) :
    trim l = l := by
  have hl := canonicalLine_eq hc
  have := trim_intercalate (canonicalLine_tokens (l := l))
  rwa [hl] at this

theorem stripCr_of_canonicalLine {l : List Char} (hc : isCanonicalLine l = true) :
    stripCr l = l := by
  have hl := canonicalLine_eq hc
  have := stripCr_of_tokens (canonicalLine_tokens (l := l))
  rwa [hl] at this

theorem render_from_string_canonical {l : List Char} {r : HostsFileLine}
    (hc : isCanonicalLine l = true) (hp : HostsFileLine.from_string l = Except.ok r) :
    r.render = l := by
  have hl := canonicalLine_eq hc
  have htok := canonicalLine_tokens (l := l)
  have htrim := trim_of_canonicalLine hc
  rcases hts : splitWs l with _ | ⟨addr, rest⟩
  · have hl0 : l = [] := by
      rw [hts] at hl
      simpa using hl.symm
    rw [from_string_empty_case (by rw [htrim, hl0])] at hp
    injection hp with h
    subst h
    rw [render_from_empty, hl0]
  · have hlne : l ≠ [] := by
      intro h0
      rw [h0, splitWs_nil] at hts
      cases hts
    have htr : trim l ≠ [] := by rw [htrim]; exact hlne
    have hts' : splitWs (trim l) = addr :: rest := by rw [htrim, hts]
    by_cases hh : tokStartsHash (trim l) = true
    · rw [from_string_comment_case htr hh] at hp
      injection hp with h
      subst h
      rw [render_from_comment]
      exact htrim
    · have hh' : tokStartsHash (trim l) = false := by simpa using hh
      by_cases hhost : rest.takeWhile (fun s => !tokStartsHash s) = []
      · rw [from_string_no_hosts htr hh' hts' hhost] at hp
        cases hp
      · rw [from_string_host htr hh' hts' hhost] at hp
        injection hp with h
        subst h
        rcases hdw : rest.dropWhile (fun s => !tokStartsHash s) with _ | ⟨d, ds⟩
        · have hrest : rest.takeWhile (fun s => !tokStartsHash s) = rest := by
            have := List.takeWhile_append_dropWhile (fun s => !tokStartsHash s) rest
            rw [hdw, List.append_nil] at this
            exact this
          have hint : List.intercalate [' '] ([] : List (List Char)) = [] := rfl
          rw [hint, if_pos rfl, render_host, Option.toList_none, List.append_nil, hrest, ← hts]
          exact hl
        · have hd : d ≠ [] := by
            have hmem : d ∈ splitWs l := by
              rw [hts]
              refine List.mem_cons_of_mem addr ?_
              have hsub := List.dropWhile_sublist (l := rest) (fun s => !tokStartsHash s)
              exact hsub.mem (hdw ▸ List.mem_cons_self d ds)
            exact splitWs_mem_ne_nil hmem
          have hcs : List.intercalate [' '] (d :: ds) ≠ [] := by
            rcases ds with _ | ⟨d2, ds2⟩
            · rwa [intercalate_single]
            · rw [intercalate_cons_ne_nil _ _ (by simp)]
              simp [hd]
          rw [if_neg hcs, render_host, Option.toList_some, ← List.cons_append,
            intercalate_nested _ (by simp : d :: ds ≠ []), List.cons_append, ← hdw,
            List.takeWhile_append_dropWhile, ← hts]
          exact hl

/-! ### Document-level lemmas: line splitting and fail-fast parsing -/

theorem splitOnP_append_sep (p : Char → Bool) {sep : Char} (hsep : p sep = true)
    (xs : List Char) : (xs ++ [sep]).splitOnP p = xs.splitOnP p ++ [[]] := by
  induction xs with
  | nil => simp [List.splitOnP_cons, hsep, List.splitOnP_nil]
  | cons x xs ih =>
    rw [List.cons_append, List.splitOnP_cons, List.splitOnP_cons, ih]
    by_cases hx : p x
    · simp [hx]
    · rcases h0 : xs.splitOnP p with _ | ⟨t, ts⟩
      · exact absurd h0 (List.splitOnP_ne_nil p xs)
      · simp [hx, h0]

theorem splitOn_append_nl (xs : List Char) :
    (xs ++ ['\n']).splitOn '\n' = xs.splitOn '\n' ++ [[]] := by
  unfold List.splitOn
  exact splitOnP_append_sep _ (by simp) xs

theorem rawLines_concat_nl (xs : List Char) : rawLines (xs ++ ['\n']) = xs.splitOn '\n' := by
  unfold rawLines
  rw [splitOn_append_nl]
  simp

theorem rawLines_reconstruct {s : List Char} (h : s.getLast? = some '\n') :
    List.intercalate ['\n'] (rawLines s) ++ ['\n'] = s := by
  have hs : s.dropLast ++ ['\n'] = s := List.dropLast_append_getLast? '\n' h
  rw [← hs, rawLines_concat_nl]
  have := List.intercalate_splitOn s.dropLast '\n'
  rw [this]

theorem splitOn_mem_not_nl {t : List Char} {s : List Char} (h : t ∈ s.splitOn '\n') :
    '\n' ∉ t := by
  intro hc
  have := splitOnP_mem_not (· == '\n') s t h '\n' hc
  simp at this

theorem rawLines_cons {l : List Char} (hnl : '\n' ∉ l) (rest : List Char) :
    rawLines (l ++ '\n' :: rest) = l :: rawLines rest := by
  unfold rawLines
  have hsplit : (l ++ '\n' :: rest).splitOn '\n' = l :: rest.splitOn '\n' := by
    unfold List.splitOn
    refine List.splitOnP_first _ l ?_ '\n' (by simp) rest
    intro x hx
    simp only [beq_iff_eq]
    intro h0
    exact hnl (h0 ▸ hx)
  rw [hsplit]
  rcases h0 : rest.splitOn '\n' with _ | ⟨t, ts⟩
  · exact absurd h0 (List.splitOnP_ne_nil _ rest)
  · simp only [List.getLast?_cons_cons]
    by_cases hlast : (t :: ts).getLast? = some []
    · rw [if_pos hlast, if_pos hlast, List.dropLast_cons_of_ne_nil (by simp)]
    · rw [if_neg hlast, if_neg hlast]

theorem rustLines_terminated {ls : List (List Char)}
    (h : ∀ l ∈ ls, '\n' ∉ l ∧ stripCr l = l) :
    rustLines ((ls.map (fun l => l ++ ['\n'])).flatten) = ls := by
  induction ls with
  | nil => rfl
  | cons l ls ih =>
    have hl := h l (List.mem_cons_self l ls)
    have hls : ∀ x ∈ ls, '\n' ∉ x ∧ stripCr x = x := fun x hx =>
      h x (List.mem_cons_of_mem l hx)
    unfold rustLines
    rw [List.map_cons, List.flatten_cons, List.append_assoc, List.singleton_append,
      rawLines_cons hl.1, List.map_cons, hl.2]
    have := ih hls
    unfold rustLines at this
    rw [this]

theorem parseAll_cons_ok {l : List Char} {r : HostsFileLine} {ls : List (List Char)}
    {rs : List HostsFileLine} (h1 : HostsFileLine.from_string l = Except.ok r)
    (h2 : parseAll ls = Except.ok rs) : parseAll (l :: ls) = Except.ok (r :: rs) := by
  unfold parseAll
  rw [h1, h2]

theorem parseAll_ok_forall {ls : List (List Char)} {rs : List HostsFileLine}
    (h : parseAll ls = Except.ok rs) :
    List.Forall₂ (fun l r => HostsFileLine.from_string l = Except.ok r) ls rs := by
  induction ls generalizing rs with
  | nil =>
    unfold parseAll at h
    injection h with h
    subst h
    exact List.Forall₂.nil
  | cons l ls ih =>
    unfold parseAll at h
    rcases h1 : HostsFileLine.from_string l with e | r
    · rw [h1] at h; cases h
    · rw [h1] at h
      rcases h2 : parseAll ls with e | rs0
      · rw [h2] at h; cases h
      · rw [h2] at h
        injection h with h
        subst h
        exact List.Forall₂.cons h1 (ih h2)

theorem parseAll_error_at {pre : List (List Char)} {l : List Char} {e : ParseError}
    (suf : List (List Char)) (hpre : ∀ x ∈ pre, ∃ r, HostsFileLine.from_string x = Except.ok r)
    (hl : HostsFileLine.from_string l = Except.error e) :
    parseAll (pre ++ l :: suf) = Except.error e := by
  induction pre with
  | nil =>
    rw [List.nil_append]
    unfold parseAll
    rw [hl]
  | cons x pre ih =>
    obtain ⟨r, hr⟩ := hpre x (List.mem_cons_self x pre)
    have hrest := ih (fun y hy => hpre y (List.mem_cons_of_mem x hy))
    rw [List.cons_append]
    unfold parseAll
    rw [hr, hrest]

theorem parseAll_map_render {ls : List (List Char)} {rs : List HostsFileLine}
    (h : parseAll ls = Except.ok rs) (hc : ∀ l ∈ ls, isCanonicalLine l = true) :
    rs.map HostsFileLine.render = ls := by
  induction ls generalizing rs with
  | nil =>
    unfold parseAll at h
    injection h with h
    subst h
    rfl
  | cons l ls ih =>
    unfold parseAll at h
    rcases h1 : HostsFileLine.from_string l with e | r
    · rw [h1] at h; cases h
    · rw [h1] at h
      rcases h2 : parseAll ls with e | rs0
      · rw [h2] at h; cases h
      · rw [h2] at h
        injection h with h
        subst h
        rw [List.map_cons,
          render_from_string_canonical (hc l (List.mem_cons_self l ls)) h1,
          ih h2 (fun x hx => hc x (List.mem_cons_of_mem l hx))]

theorem isCanonical_parts {s : List Char} (h : isCanonical s = true) :
    s.getLast? = some '\n' ∧ ∀ l ∈ rawLines s, isCanonicalLine l = true := by
  unfold isCanonical at h
  simp only [Bool.and_eq_true, decide_eq_true_eq, List.all_eq_true] at h
  exact h

theorem map_eq_self_of_forall {α : Type} {f : α → α} {l : List α}
    (h : ∀ x ∈ l, f x = x) : l.map f = l := by
  induction l with
  | nil => rfl
  | cons x l ih =>
    rw [List.map_cons, h x (List.mem_cons_self x l),
      ih (fun y hy => h y (List.mem_cons_of_mem x hy))]

theorem rustLines_of_canonical {s : List Char}
    (h : ∀ l ∈ rawLines s, isCanonicalLine l = true) : rustLines s = rawLines s := by
  unfold rustLines
  exact map_eq_self_of_forall (fun l hl => stripCr_of_canonicalLine (h l hl))

/-- C1: for every text `T` in canonical form (every physical line is
single-space token separated with no leading or trailing whitespace, and `T`
ends with a trailing newline) that parses successfully, serializing the
parsed document reproduces `T` exactly. -/
theorem c1_roundtrip {s : List Char} {f : HostsFile}
    (hc : isCanonical s = true) (hp : HostsFile.from_string s = Except.ok f) :
    f.serialize = s := by
  obtain ⟨hnl, hlines⟩ := isCanonical_parts hc
  have hrl : rustLines s = rawLines s := rustLines_of_canonical hlines
  unfold HostsFile.from_string at hp
  rcases hpa : parseAll (rustLines s) with e | ls
  · rw [hpa] at hp; cases hp
  · rw [hpa] at hp
    injection hp with hp
    subst hp
    rw [hrl] at hpa
    show List.intercalate ['\n'] (ls.map HostsFileLine.render) ++ ['\n'] = s
    rw [parseAll_map_render hpa hlines]
    exact rawLines_reconstruct hnl

/-- The end-to-end sample document text from the source's tests. -/
def sampleText : List Char :=
  ("# A sample host file\n# empty line\n\n127.0.0.1 localhost\n# multiple hosts\n" ++
    "127.0.0.2 host1 host2\n").toList

/-- The parsed form of `sampleText`. -/
def sampleDoc : HostsFile :=
  { lines :=
      [HostsFileLine.from_comment "# A sample host file".toList,
        HostsFileLine.from_comment "# empty line".toList,
        HostsFileLine.from_empty,
        { is_empty := false, comment := none, ip := some "127.0.0.1".toList,
          hosts := some ["localhost".toList] },
        HostsFileLine.from_comment "# multiple hosts".toList,
        { is_empty := false, comment := none, ip := some "127.0.0.2".toList,
          hosts := some ["host1".toList, "host2".toList] }] }

/-- Witness for C1 at the sample document. -/
theorem c1_roundtrip_witness : HostsFile.serialize sampleDoc = sampleText :=
  c1_roundtrip (by decide) (by rfl)

/-! ### Heads of trimmed lines and non-emptiness of the token list -/

theorem dropWhile_head_false {l cs : List Char} {c : Char}
    (h : l.dropWhile isWs = c :: cs) : isWs c = false := by
  induction l with
  | nil => cases h
  | cons a l ih =>
    rw [List.dropWhile_cons] at h
    by_cases ha : isWs a = true
    · rw [if_pos ha] at h
      exact ih h
    · rw [if_neg ha] at h
      injection h with h1 h2
      subst h1
      simpa using ha

theorem trim_head_not_ws {l : List Char} (h : trim l ≠ []) :
    ∃ c cs, trim l = c :: cs ∧ isWs c = false := by
  rcases htr : trim l with _ | ⟨c, cs⟩
  · exact absurd htr h
  · refine ⟨c, cs, rfl, ?_⟩
    have htr' : List.rdropWhile isWs (l.dropWhile isWs) = c :: cs := htr
    have hpre : List.rdropWhile isWs (l.dropWhile isWs) <+: l.dropWhile isWs :=
      List.rdropWhile_prefix isWs (l.dropWhile isWs)
    rw [htr'] at hpre
    obtain ⟨t, ht⟩ := hpre
    exact dropWhile_head_false (l := l) (by rw [← ht]; rfl)

theorem splitWs_trim_ne_nil {l : List Char} (h : trim l ≠ []) : splitWs (trim l) ≠ [] := by
  obtain ⟨c, cs, heq, hc⟩ := trim_head_not_ws h
  rw [heq]
  unfold splitWs
  rw [List.splitOnP_cons, if_neg (by simp [hc])]
  rcases h0 : cs.splitOnP isWs with _ | ⟨t, ts⟩
  · exact absurd h0 (List.splitOnP_ne_nil _ cs)
  · simp [h0, List.modifyHead]

/-- C8: the missing-first-token guard of `from_string` is dead code: whenever
the trimmed line is nonempty, whitespace splitting yields at least one
token, and every parse failure exhibits a nonempty token list, so the error
is never the missing-address one. -/
theorem c8_missing_address_unreachable :
    (∀ l : List Char, trim l ≠ [] → splitWs (trim l) ≠ []) ∧
    (∀ (l : List Char) (e : ParseError), HostsFileLine.from_string l = Except.error e →
      splitWs (trim l) ≠ []) := by
  constructor
  · exact fun l h => splitWs_trim_ne_nil h
  · intro l e he
    by_cases h1 : trim l = []
    · rw [from_string_empty_case h1] at he
      cases he
    · exact splitWs_trim_ne_nil h1

/-- Witness for C8: a line with a single token has a nonempty token list. -/
theorem c8_missing_address_unreachable_witness : splitWs (trim "x".toList) ≠ [] :=
  c8_missing_address_unreachable.1 ("x".toList) (by decide)

/-- C3: a line fails to parse iff it is nonempty after trimming, does not
start with `#`, and has no hostname token after the address token before the
first `#`-prefixed token; in particular `"127.0.0.1"` fails. -/
theorem c3_failure_iff :
    HostsFileLine.from_string "127.0.0.1".toList = Except.error {} ∧
    ∀ l : List Char, (∃ e, HostsFileLine.from_string l = Except.error e) ↔
      (trim l ≠ [] ∧ tokStartsHash (trim l) = false ∧
        (splitWs (trim l)).tail.takeWhile (fun s => !tokStartsHash s) = []) := by
  constructor
  · rfl
  · intro l
    constructor
    · rintro ⟨e, he⟩
      by_cases h1 : trim l = []
      · rw [from_string_empty_case h1] at he
        cases he
      · by_cases h2 : tokStartsHash (trim l) = true
        · rw [from_string_comment_case h1 h2] at he
          cases he
        · have h2' : tokStartsHash (trim l) = false := by simpa using h2
          refine ⟨h1, h2', ?_⟩
          rcases hts : splitWs (trim l) with _ | ⟨addr, rest⟩
          · exact absurd hts (splitWs_trim_ne_nil h1)
          · by_cases h3 : rest.takeWhile (fun s => !tokStartsHash s) = []
            · simpa using h3
            · rw [from_string_host h1 h2' hts h3] at he
              cases he
    · rintro ⟨h1, h2, h3⟩
      rcases hts : splitWs (trim l) with _ | ⟨addr, rest⟩
      · exact ⟨{}, from_string_no_tokens h1 h2 hts⟩
      · rw [hts] at h3
        exact ⟨{}, from_string_no_hosts h1 h2 hts (by simpa using h3)⟩

/-- C5: the serializer renders each line, joins with a single newline and
appends exactly one trailing newline; a zero-line document serializes to a
single newline; parsing the empty text yields a zero-line document. -/
theorem c5_serialize_shape :
    (∀ ls : List HostsFileLine, HostsFile.serialize { lines := ls } =
      List.intercalate ['\n'] (ls.map HostsFileLine.render) ++ ['\n']) ∧
    HostsFile.serialize { lines := [] } = ['\n'] ∧
    HostsFile.from_string [] = Except.ok { lines := [] } :=
  ⟨fun _ => rfl, rfl, rfl⟩

/-- C6: the renderer is total and yields the empty string on an Empty
record, the stored text verbatim on a Comment record, and the address,
hostnames and optional comment joined by single spaces on a Host record. -/
theorem c6_render_cases :
    HostsFileLine.from_empty.render = [] ∧
    (∀ c, (HostsFileLine.from_comment c).render = c) ∧
    (∀ (cm : Option (List Char)) (ip : List Char) (hs : List (List Char)),
      HostsFileLine.render
          { is_empty := false, comment := cm, ip := some ip, hosts := some hs } =
        List.intercalate [' '] (ip :: (hs ++ cm.toList))) :=
  ⟨render_from_empty, render_from_comment, render_host⟩

/-- C7: the two direct constructors and every successful parse produce a
record of exactly one of the three shapes, and a present hostname list is
never empty. -/
theorem c7_wellformed :
    wellFormed HostsFileLine.from_empty = true ∧
    (∀ c, wellFormed (HostsFileLine.from_comment c) = true) ∧
    (∀ (l : List Char) (r : HostsFileLine), HostsFileLine.from_string l = Except.ok r →
      wellFormed r = true) := by
  refine ⟨by decide, fun c => ?_, fun l r hp => ?_⟩
  · simp [wellFormed, kindCount, isEmptyRec, isCommentRec, isHostRec,
      HostsFileLine.from_comment]
  · by_cases h1 : trim l = []
    · rw [from_string_empty_case h1] at hp
      injection hp with hp
      subst hp
      decide
    · by_cases h2 : tokStartsHash (trim l) = true
      · rw [from_string_comment_case h1 h2] at hp
        injection hp with hp
        subst hp
        simp [wellFormed, kindCount, isEmptyRec, isCommentRec, isHostRec,
          HostsFileLine.from_comment]
      · have h2' : tokStartsHash (trim l) = false := by simpa using h2
        rcases hts : splitWs (trim l) with _ | ⟨addr, rest⟩
        · rw [from_string_no_tokens h1 h2' hts] at hp
          cases hp
        · by_cases h3 : rest.takeWhile (fun s => !tokStartsHash s) = []
          · rw [from_string_no_hosts h1 h2' hts h3] at hp
            cases hp
          · rw [from_string_host h1 h2' hts h3] at hp
            injection hp with hp
            subst hp
            simp [wellFormed, kindCount, isEmptyRec, isCommentRec, isHostRec, h3]

/-- Witness for C7 at a parsed host line. -/
theorem c7_wellformed_witness :
    wellFormed { is_empty := false, comment := none, ip := some "127.0.0.1".toList,
                 hosts := some ["localhost".toList] } = true :=
  c7_wellformed.2.2 ("127.0.0.1 localhost".toList) _ (by rfl)

/-- C9: the Comment constructor validates nothing and stores its argument
verbatim, and rendering returns it verbatim; the leading-`#` shape of a
comment record is guaranteed only when the record comes from parsing. -/
theorem c9_from_comment_verbatim :
    (∀ c, (HostsFileLine.from_comment c).is_empty = false ∧
      (HostsFileLine.from_comment c).comment = some c ∧
      (HostsFileLine.from_comment c).ip = none ∧
      (HostsFileLine.from_comment c).hosts = none ∧
      (HostsFileLine.from_comment c).render = c) ∧
    (∀ (l : List Char) (r : HostsFileLine), HostsFileLine.from_string l = Except.ok r →
      r.ip = none → r.is_empty = false →
      ∀ c, r.comment = some c → tokStartsHash c = true) := by
  constructor
  · exact fun c => ⟨rfl, rfl, rfl, rfl, render_from_comment c⟩
  · intro l r hp hip hemp c hcm
    by_cases h1 : trim l = []
    · rw [from_string_empty_case h1] at hp
      injection hp with hp
      subst hp
      cases hemp
    · by_cases h2 : tokStartsHash (trim l) = true
      · rw [from_string_comment_case h1 h2] at hp
        injection hp with hp
        subst hp
        injection hcm with hcm
        subst hcm
        exact h2
      · have h2' : tokStartsHash (trim l) = false := by simpa using h2
        rcases hts : splitWs (trim l) with _ | ⟨addr, rest⟩
        · rw [from_string_no_tokens h1 h2' hts] at hp
          cases hp
        · by_cases h3 : rest.takeWhile (fun s => !tokStartsHash s) = []
          · rw [from_string_no_hosts h1 h2' hts h3] at hp
            cases hp
          · rw [from_string_host h1 h2' hts h3] at hp
            injection hp with hp
            subst hp
            cases hip

/-- Witness for C9 at a parsed comment line. -/
theorem c9_from_comment_verbatim_witness : tokStartsHash "# hi".toList = true :=
  c9_from_comment_verbatim.2 ("# hi".toList) (HostsFileLine.from_comment "# hi".toList)
    (by rfl) rfl rfl ("# hi".toList) rfl

/-! ### The code's line classifier refines the spec's wording (C2) -/

theorem dropWhile_eq_drop_length_takeWhile {α : Type} (p : α → Bool) (l : List α) :
    l.dropWhile p = l.drop (l.takeWhile p).length := by
  induction l with
  | nil => rfl
  | cons a l ih =>
    rw [List.dropWhile_cons, List.takeWhile_cons]
    by_cases ha : p a = true
    · rw [if_pos ha, if_pos ha, List.length_cons, List.drop_succ_cons, ih]
    · rw [if_neg ha, if_neg ha, List.length_nil, List.drop_zero]

theorem specTokensAux_eq (s : List Char) : ∀ cur : List Char,
    (∀ c ∈ cur, isWs c = false) → specTokensAux s cur = splitWs (cur.reverse ++ s) := by
  induction s with
  | nil =>
    intro cur hcur
    unfold specTokensAux
    rw [List.append_nil, splitWs_ws_free (fun c hc => hcur c (by simpa using hc))]
    by_cases h0 : cur = []
    · rw [if_pos h0, if_pos (by simp [h0])]
    · rw [if_neg h0, if_neg (by simpa using h0)]
  | cons c cs ih =>
    intro cur hcur
    unfold specTokensAux
    by_cases hc : isWs c = true
    · rw [if_pos hc,
        splitWs_append_sep cs (fun x hx => hcur x (by simpa using hx)) hc,
        ih [] (by simp)]
      by_cases h0 : cur = []
      · rw [if_pos h0, if_pos (by simp [h0])]
        simp
      · rw [if_neg h0, if_neg (by simpa using h0)]
        rfl
    · rw [if_neg hc]
      have hcur' : ∀ x ∈ c :: cur, isWs x = false := by
        intro x hx
        rcases List.mem_cons.mp hx with h | h
        · subst h
          simpa using hc
        · exact hcur x h
      rw [ih (c :: cur) hcur', List.reverse_cons, List.append_assoc]
      rfl

theorem specTokens_eq_splitWs (s : List Char) : specTokens s = splitWs s := by
  have := specTokensAux_eq s [] (by simp)
  simpa [specTokens] using this

theorem specIsCommentTok_eq_tokStartsHash : specIsCommentTok = tokStartsHash := by
  funext t
  rcases t with _ | ⟨c, cs⟩
  · simp [specIsCommentTok, tokStartsHash]
  · simp [specIsCommentTok, tokStartsHash, List.take_succ_cons]

/-- C2: the line classifier of the source computes exactly the algorithm the
spec words: trim, empty line to Empty, `#`-led trimmed line to a verbatim
Comment, otherwise whitespace tokens with the first token the address, the
maximal prefix of the rest not starting with `#` the hostnames, and the
tokens from the first `#`-prefixed one onward joined with single spaces the
comment, absent exactly when that join is empty (so `word#comment` is a
hostname, never a comment start). -/
theorem c2_parse_line_spec : ∀ l : List Char, HostsFileLine.from_string l = specParseLine l := by
  intro l
  by_cases h1 : trim l = []
  · rw [from_string_empty_case h1]
    unfold specParseLine
    rw [if_pos h1]
  · by_cases h2 : tokStartsHash (trim l) = true
    · rw [from_string_comment_case h1 h2]
      unfold specParseLine
      rw [if_neg h1, if_pos (by rw [specIsCommentTok_eq_tokStartsHash]; exact h2)]
    · have h2' : tokStartsHash (trim l) = false := by simpa using h2
      have hcond : ¬ specIsCommentTok (trim l) = true := by
        rw [specIsCommentTok_eq_tokStartsHash, h2']
        simp
      rcases hts : splitWs (trim l) with _ | ⟨addr, rest⟩
      · exact absurd hts (splitWs_trim_ne_nil h1)
      · have hspec : specTokens (trim l) = addr :: rest := by
          rw [specTokens_eq_splitWs, hts]
        by_cases h3 : rest.takeWhile (fun s => !tokStartsHash s) = []
        · rw [from_string_no_hosts h1 h2' hts h3]
          unfold specParseLine
          rw [if_neg h1, if_neg hcond, hspec]
          simp only [specIsCommentTok_eq_tokStartsHash]
          rw [if_pos h3]
        · rw [from_string_host h1 h2' hts h3]
          unfold specParseLine
          rw [if_neg h1, if_neg hcond, hspec]
          simp only [specIsCommentTok_eq_tokStartsHash]
          rw [if_neg h3, ← dropWhile_eq_drop_length_takeWhile]

/-! ### C4: document parsing is line-splitting, per-line, ordered, fail-fast -/

/-- C4: the document parser splits on newlines with lines-of-text semantics
(a final trailing newline adds no empty trailing element), parses every line
independently collecting results in input order, and fails immediately with
the first failing line's error, returning no partial document. -/
theorem c4_document_parse :
    (∀ ls : List (List Char), (∀ l ∈ ls, '\n' ∉ l ∧ stripCr l = l) →
      rustLines ((ls.map (fun l => l ++ ['\n'])).flatten) = ls) ∧
    (∀ (s : List Char) (f : HostsFile), HostsFile.from_string s = Except.ok f →
      List.Forall₂ (fun l r => HostsFileLine.from_string l = Except.ok r)
        (rustLines s) f.lines) ∧
    (∀ (s : List Char) (pre : List (List Char)) (l : List Char) (suf : List (List Char))
      (e : ParseError), rustLines s = pre ++ l :: suf →
      (∀ x ∈ pre, ∃ r, HostsFileLine.from_string x = Except.ok r) →
      HostsFileLine.from_string l = Except.error e →
      HostsFile.from_string s = Except.error e) := by
  refine ⟨fun ls h => rustLines_terminated h, ?_, ?_⟩
  · intro s f hp
    unfold HostsFile.from_string at hp
    rcases hpa : parseAll (rustLines s) with e | rs
    · rw [hpa] at hp; cases hp
    · rw [hpa] at hp
      injection hp with hp
      subst hp
      exact parseAll_ok_forall hpa
  · intro s pre l suf e hsplit hpre hl
    unfold HostsFile.from_string
    rw [hsplit, parseAll_error_at suf hpre hl]

/-- Witness for C4: a document whose second line fails makes the whole parse
fail with that line's error. -/
theorem c4_document_parse_witness :
    HostsFile.from_string ("a b\n127.0.0.1\nc d\n".toList) = Except.error {} :=
  c4_document_parse.2.2 ("a b\n127.0.0.1\nc d\n".toList) ["a b".toList] ("127.0.0.1".toList)
    ["c d".toList] {} (by rfl)
    (by
      intro x hx
      rw [List.mem_singleton] at hx
      subst hx
      exact ⟨HostsFileLine.from_string ("a b".toList) |>.toOption.get (by rfl), by rfl⟩)
    (by rfl)

/-! ### C10: CRLF line endings parse identically to LF line endings -/

theorem toCrlf_append (a b : List Char) : toCrlf (a ++ b) = toCrlf a ++ toCrlf b := by
  induction a with
  | nil => rfl
  | cons c cs ih =>
    rw [List.cons_append]
    show toCrlf (c :: (cs ++ b)) = toCrlf (c :: cs) ++ toCrlf b
    by_cases hc : c = '\n'
    · simp only [toCrlf, if_pos hc, ih]
      rfl
    · simp only [toCrlf, if_neg hc, ih]
      rfl

theorem toCrlf_nl_free {l : List Char} (h : '\n' ∉ l) : toCrlf l = l := by
  induction l with
  | nil => rfl
  | cons c cs ih =>
    have hc : c ≠ '\n' := fun h0 => h (h0 ▸ List.mem_cons_self c cs)
    simp only [toCrlf, if_neg hc]
    rw [ih (fun h0 => h (List.mem_cons_of_mem c h0))]

theorem toCrlf_intercalate {ps : List (List Char)} (h : ∀ p ∈ ps, '\n' ∉ p) :
    toCrlf (List.intercalate ['\n'] ps) = List.intercalate ['\r', '\n'] ps := by
  induction ps with
  | nil => rfl
  | cons p ps ih =>
    rcases ps with _ | ⟨q, qs⟩
    · rw [intercalate_single, intercalate_single]
      exact toCrlf_nl_free (h p (List.mem_cons_self p []))
    · rw [intercalate_cons_ne_nil ['\n'] p (show (q :: qs : List (List Char)) ≠ [] by simp),
        intercalate_cons_ne_nil ['\r', '\n'] p (show (q :: qs : List (List Char)) ≠ [] by simp),
        toCrlf_append, toCrlf_append,
        toCrlf_nl_free (h p (List.mem_cons_self p (q :: qs))),
        ih (fun x hx => h x (List.mem_cons_of_mem p hx))]
      rfl

/-- Helper for the CRLF analysis: append a carriage return to every piece
except the last one. -/
def addCrButLast : List (List Char) → List (List Char)
  | [] => []
  | [p] => [p]
  | p :: q :: rest => (p ++ ['\r']) :: addCrButLast (q :: rest)

theorem addCrButLast_ne_nil {ps : List (List Char)} (h : ps ≠ []) : addCrButLast ps ≠ [] := by
  rcases ps with _ | ⟨p, ps⟩
  · exact absurd rfl h
  · rcases ps with _ | ⟨q, qs⟩ <;> simp [addCrButLast]

theorem addCrButLast_getLast? (ps : List (List Char)) :
    (addCrButLast ps).getLast? = ps.getLast? := by
  induction ps with
  | nil => rfl
  | cons p ps ih =>
    rcases ps with _ | ⟨q, qs⟩
    · rfl
    · show ((p ++ ['\r']) :: addCrButLast (q :: qs)).getLast? = _
      rcases h0 : addCrButLast (q :: qs) with _ | ⟨a, as⟩
      · exact absurd h0 (addCrButLast_ne_nil (by simp))
      · rw [List.getLast?_cons_cons, ← h0, ih, List.getLast?_cons_cons]

theorem addCrButLast_dropLast (ps : List (List Char)) :
    (addCrButLast ps).dropLast = ps.dropLast.map (fun p => p ++ ['\r']) := by
  induction ps with
  | nil => rfl
  | cons p ps ih =>
    rcases ps with _ | ⟨q, qs⟩
    · rfl
    · show ((p ++ ['\r']) :: addCrButLast (q :: qs)).dropLast = _
      rw [List.dropLast_cons_of_ne_nil (addCrButLast_ne_nil (by simp)), ih,
        List.dropLast_cons_of_ne_nil (by simp : (q :: qs : List (List Char)) ≠ [])]
      rfl

theorem splitOn_intercalate_crlf : ∀ ps : List (List Char), ps ≠ [] →
    (∀ p ∈ ps, '\n' ∉ p) →
    (List.intercalate ['\r', '\n'] ps).splitOn '\n' = addCrButLast ps := by
  intro ps
  induction ps with
  | nil =>
    intro hne _
    exact absurd rfl hne
  | cons p ps ih =>
    intro _ h
    rcases ps with _ | ⟨q, qs⟩
    · rw [intercalate_single]
      show List.splitOnP (· == '\n') p = [p]
      refine List.splitOnP_eq_single _ _ ?_
      intro x hx hbeq
      rw [beq_iff_eq] at hbeq
      exact h p (List.mem_cons_self p []) (hbeq ▸ hx)
    · have hxs : ∀ x ∈ p ++ ['\r'], ¬ (x == '\n') = true := by
        intro x hx hbeq
        rw [beq_iff_eq] at hbeq
        subst hbeq
        rcases List.mem_append.mp hx with h1 | h1
        · exact h p (List.mem_cons_self p (q :: qs)) h1
        · simp at h1
      have hform : List.intercalate ['\r', '\n'] (p :: q :: qs) =
          (p ++ ['\r']) ++ '\n' :: List.intercalate ['\r', '\n'] (q :: qs) := by
        rw [intercalate_cons_ne_nil _ _ (by simp)]
        simp
      rw [hform]
      show List.splitOnP (· == '\n')
          ((p ++ ['\r']) ++ '\n' :: List.intercalate ['\r', '\n'] (q :: qs)) = _
      rw [List.splitOnP_first (· == '\n') (p ++ ['\r']) hxs '\n' (by simp) _]
      have hrec := ih (by simp) (fun x hx => h x (List.mem_cons_of_mem p hx))
      show (p ++ ['\r']) :: List.splitOnP (· == '\n') (List.intercalate ['\r', '\n'] (q :: qs)) =
        (p ++ ['\r']) :: addCrButLast (q :: qs)
      rw [← hrec]
      rfl

theorem forall2_map_cr (ps : List (List Char)) :
    List.Forall₂ (fun a b => a = b ++ ['\r'] ∨ a = b)
      (ps.map (fun p => p ++ ['\r'])) ps := by
  induction ps with
  | nil => exact List.Forall₂.nil
  | cons p ps ih => exact List.Forall₂.cons (Or.inl rfl) ih

theorem forall2_addCr (ps : List (List Char)) :
    List.Forall₂ (fun a b => a = b ++ ['\r'] ∨ a = b) (addCrButLast ps) ps := by
  induction ps with
  | nil => exact List.Forall₂.nil
  | cons p ps ih =>
    rcases ps with _ | ⟨q, qs⟩
    · exact List.Forall₂.cons (Or.inr rfl) List.Forall₂.nil
    · exact List.Forall₂.cons (Or.inl rfl) ih

theorem trim_concat_ws {c : Char} (x : List Char) (hc : isWs c = true) :
    trim (x ++ [c]) = trim x := by
  unfold trim
  rw [List.dropWhile_append]
  by_cases h0 : (x.dropWhile isWs).isEmpty = true
  · rw [if_pos h0]
    have hzero : List.dropWhile isWs [c] = [] := by
      rw [show ([c] : List Char) = c :: [] from rfl, List.dropWhile_cons, if_pos hc]
      rfl
    rw [hzero, List.isEmpty_iff.mp h0]
  · rw [if_neg h0]
    exact List.rdropWhile_concat_pos isWs _ c hc

theorem trim_idem (l : List Char) : trim (trim l) = trim l := by
  by_cases h : trim l = []
  · rw [h]
    rfl
  · obtain ⟨c, cs, heq, hc⟩ := trim_head_not_ws h
    have hdrop : (trim l).dropWhile isWs = trim l := by
      rw [heq, List.dropWhile_cons, if_neg (by simp [hc])]
    show ((trim l).dropWhile isWs).rdropWhile isWs = trim l
    rw [hdrop]
    exact List.rdropWhile_eq_self_iff.mpr
      (fun hl => List.rdropWhile_last_not isWs (l.dropWhile isWs) hl)

theorem from_string_trim (l : List Char) :
    HostsFileLine.from_string (trim l) = HostsFileLine.from_string l := by
  unfold HostsFileLine.from_string
  rw [trim_idem]

theorem from_string_concat_cr (l : List Char) :
    HostsFileLine.from_string (l ++ ['\r']) = HostsFileLine.from_string l := by
  rw [← from_string_trim (l ++ ['\r']), trim_concat_ws l (by decide), from_string_trim]

theorem stripCr_concat_cr (l : List Char) : stripCr (l ++ ['\r']) = l := by
  unfold stripCr
  rw [List.getLast?_concat, if_pos rfl, List.dropLast_concat]

theorem from_string_stripCr (l : List Char) :
    HostsFileLine.from_string (stripCr l) = HostsFileLine.from_string l := by
  unfold stripCr
  by_cases h0 : l.getLast? = some '\r'
  · rw [if_pos h0]
    have hl : l.dropLast ++ ['\r'] = l := List.dropLast_append_getLast? '\r' h0
    conv_rhs => rw [← hl]
    rw [from_string_concat_cr]
  · rw [if_neg h0]

theorem parseAll_congr {ls ls' : List (List Char)}
    (h : List.Forall₂
      (fun a b => HostsFileLine.from_string a = HostsFileLine.from_string b) ls ls') :
    parseAll ls = parseAll ls' := by
  induction h with
  | nil => rfl
  | cons h1 _ ih =>
    show parseAll (_ :: _) = parseAll (_ :: _)
    unfold parseAll
    rw [h1, ih]

/-- C10: parsing a text with CRLF line endings yields exactly the same
result as parsing the text with LF line endings (the carriage return is
stripped), so serializing the parsed document of a CRLF text produces
LF-only output. -/
theorem c10_crlf_equivalent (s : List Char) :
    HostsFile.from_string (toCrlf s) = HostsFile.from_string s := by
  have hps_ne : s.splitOn '\n' ≠ [] := List.splitOnP_ne_nil _ s
  have hnl : ∀ p ∈ s.splitOn '\n', '\n' ∉ p := fun p hp => splitOn_mem_not_nl hp
  have hs : List.intercalate ['\n'] (s.splitOn '\n') = s := List.intercalate_splitOn s '\n'
  have hto : toCrlf s = List.intercalate ['\r', '\n'] (s.splitOn '\n') := by
    conv_lhs => rw [← hs]
    exact toCrlf_intercalate hnl
  have hsplit : (toCrlf s).splitOn '\n' = addCrButLast (s.splitOn '\n') := by
    rw [hto]
    exact splitOn_intercalate_crlf _ hps_ne hnl
  have hforall : List.Forall₂ (fun a b => a = b ++ ['\r'] ∨ a = b)
      (rawLines (toCrlf s)) (rawLines s) := by
    simp only [rawLines, hsplit, addCrButLast_getLast?]
    by_cases hlast : (s.splitOn '\n').getLast? = some []
    · rw [if_pos hlast, if_pos hlast, addCrButLast_dropLast]
      exact forall2_map_cr _
    · rw [if_neg hlast, if_neg hlast]
      exact forall2_addCr _
  have hforall2 : List.Forall₂
      (fun a b => HostsFileLine.from_string a = HostsFileLine.from_string b)
      (rustLines (toCrlf s)) (rustLines s) := by
    unfold rustLines
    rw [List.forall₂_map_left_iff, List.forall₂_map_right_iff]
    refine hforall.imp ?_
    intro a b hab
    rcases hab with h1 | h1
    · subst h1
      rw [stripCr_concat_cr, from_string_stripCr]
    · subst h1
      rfl
  unfold HostsFile.from_string
  rw [parseAll_congr hforall2]

end HostsParser
